import Mathlib

/-!
Shallow embedding of the story-to-storybook pipeline implemented in
`supabase/functions/story-to-video/index.ts`.  The file contains two revisions
of the edge function separated by a marker: the first ("direct generation")
requests a fresh illustration per page from a remote API, the second
("reuse and placeholder") uses a locally synthesized SVG placeholder for
every page except the last, which reuses the caller-supplied image.
Both revisions share `splitScenes`, `DIALOGUE_REGEX`, `parseSceneLines`
and the chunked base64 audio encoding.

Strings are modelled as `List Char`; byte arrays as `List Nat` (each < 256).
Remote calls are modelled as oracle functions passed to the assembler.
-/

namespace StoryPipeline

/-- Whitespace test used by the embedding for both the `\s` regex class and
`String.prototype.trim`: the ECMAScript WhiteSpace and LineTerminator code
points (tab, LF, VT, FF, CR, space, NBSP, Ogham space, U+2000..U+200A,
LS, PS, NNBSP, MMSP, ideographic space, BOM). -/
def isWS (c : Char) : Bool :=
  decide (c.toNat ∈ ([9, 10, 11, 12, 13, 32, 160, 5760, 8192, 8193, 8194,
    8195, 8196, 8197, 8198, 8199, 8200, 8201, 8202, 8232, 8233, 8239, 8287,
    12288, 65279] : List Nat))

/-- Line terminators of ECMAScript: LF, CR, LS, PS.  These are the
characters the dot of a regex without the `s` flag cannot match, although
`\s` does match them and `trim` strips them at the ends of a string. -/
def isLineTerm (c : Char) : Bool :=
  decide (c.toNat ∈ ([10, 13, 8232, 8233] : List Nat))

/-- ASCII letter, the class `[A-Za-z]` of `DIALOGUE_REGEX`. -/
def isAsciiLetter (c : Char) : Bool :=
  decide ((65 ≤ c.toNat ∧ c.toNat ≤ 90) ∨ (97 ≤ c.toNat ∧ c.toNat ≤ 122))

/-- The character class `[\w\- ]` of `DIALOGUE_REGEX`: ASCII letters, digits,
underscore, hyphen and space. -/
def isSpeakerChar (c : Char) : Bool :=
  isAsciiLetter c || decide (48 ≤ c.toNat ∧ c.toNat ≤ 57) ||
    decide (c = '_') || decide (c = '-') || decide (c = ' ')

/-- Drop trailing whitespace (the right half of `String.prototype.trim`). -/
def trimRight (l : List Char) : List Char :=
  (l.reverse.dropWhile isWS).reverse

/-- Model of `String.prototype.trim`. -/
def trimL (l : List Char) : List Char :=
  trimRight (l.dropWhile isWS)

/-- Model of `story.split("\n\n")`: leftmost, non-overlapping splitting on the
literal two-newline separator, as in `splitScenes`. -/
def splitNN : List Char → List (List Char)
  | [] => [[]]
  | '\n' :: '\n' :: rest => [] :: splitNN rest
  | c :: rest =>
    match splitNN rest with
    | [] => [[c]]
    | s :: ss => (c :: s) :: ss

/-- Model of `sceneText.split("\n")`, as in `parseSceneLines`. -/
def splitNl : List Char → List (List Char)
  | [] => [[]]
  | '\n' :: rest => [] :: splitNl rest
  | c :: rest =>
    match splitNl rest with
    | [] => [[c]]
    | s :: ss => (c :: s) :: ss

/-- Embedding of `splitScenes` (identical in both revisions): split the story
on `"\n\n"`, trim every segment, keep only the non-empty ones. -/
def splitScenes (story : List Char) : List (List Char) :=
  ((splitNN story).map trimL).filter (fun s => 0 < s.length)

/-- Embedding of the `SceneLine` interface. -/
structure SceneLine where
  speaker : List Char
  text : List Char
deriving DecidableEq

/-- Model of `trimmed.match(DIALOGUE_REGEX)` for
`/^\s*([A-Za-z][\w\- ]{0,48})\s*:\s*(.+?)\s*$/` applied to an
already-trimmed line, composed with the `.trim()` the source applies to both
captured groups.  Derivation of the regex semantics: the argument is trimmed,
so `^\s*` must match the empty string.  Neither the speaker class nor `\s`
contains `:`, hence only the first colon of the line can be the literal `:`
of the pattern.  Before it, the engine needs one ASCII letter, then at most
48 speaker-class characters, then whitespace bridging to the colon; dropping
trailing whitespace of the region between the letter and the colon yields the
canonical group decomposition.  After the colon, `\s*` eats leading
whitespace (line terminators included, since `\s` matches them), and then
the non-greedy `(.+?)` must reach the end of the line: the argument is
trimmed, so its last character is not whitespace and the final `\s*$` can
only match the empty string there.  The dot of a regex without the `s` flag
cannot match line terminators, and the line (split on `"\n"`) can still
contain CR, LS or PS in its interior, so the capture exists exactly when the
remainder after the leading whitespace is non-empty and free of line
terminators.  Returns the trimmed `(match[1], match[2])` on success. -/
def matchDialogue (trimmed : List Char) : Option (List Char × List Char) :=
  match trimmed.takeWhile (fun c => c ≠ ':'), trimmed.dropWhile (fun c => c ≠ ':') with
  | a :: mid, _ :: rest =>
    let u := trimRight mid
    let tx := trimL rest
    if isAsciiLetter a ∧ u.all isSpeakerChar ∧ u.length ≤ 48 ∧ tx ≠ [] ∧
        (∀ c ∈ rest.dropWhile isWS, isLineTerm c = false) then
      some (a :: u, tx)
    else none
  | _, _ => none

/-- One iteration of the `parseSceneLines` loop: `none` when the trimmed line
is empty (the `continue`), otherwise the emitted `SceneLine`. -/
def parseLine (line : List Char) : Option SceneLine :=
  let trimmed := trimL line
  if trimmed = [] then none
  else
    match matchDialogue trimmed with
    | some (sp, tx) => some ⟨sp, tx⟩
    | none => some ⟨String.toList "Narrator", trimmed⟩

/-- Embedding of `parseSceneLines` (identical in both revisions). -/
def parseSceneLines (sceneText : List Char) : List SceneLine :=
  (splitNl sceneText).filterMap parseLine

/-- Embedding of the parse step of `processScene` (first revision, lines
149-152): parse the scene and fall back to a single Narrator line carrying
the full scene text when no line parsed. -/
def processSceneLines (sceneText : List Char) : List SceneLine :=
  let lines := parseSceneLines sceneText
  if lines = [] then [⟨String.toList "Narrator", sceneText⟩] else lines

/-- Character of the standard base64 alphabet at index `n < 64`, as used by
`btoa`. -/
def b64char (n : Nat) : Char :=
  if n < 26 then Char.ofNat (65 + n)
  else if n < 52 then Char.ofNat (97 + (n - 26))
  else if n < 62 then Char.ofNat (48 + (n - 52))
  else if n = 62 then '+' else '/'

/-- Value of a base64 alphabet character (inverse of `b64char`). -/
def b64val (c : Char) : Nat :=
  if 65 ≤ c.toNat ∧ c.toNat ≤ 90 then c.toNat - 65
  else if 97 ≤ c.toNat ∧ c.toNat ≤ 122 then c.toNat - 97 + 26
  else if 48 ≤ c.toNat ∧ c.toNat ≤ 57 then c.toNat - 48 + 52
  else if c = '+' then 62
  else if c = '/' then 63
  else 0

/-- Model of `btoa` on a binary string whose character codes are the given
bytes: standard base64 with `=` padding. -/
def b64encode : List Nat → List Char
  | b0 :: b1 :: b2 :: rest =>
    b64char (b0 / 4) :: b64char (b0 % 4 * 16 + b1 / 16) ::
      b64char (b1 % 16 * 4 + b2 / 64) :: b64char (b2 % 64) :: b64encode rest
  | [b0, b1] =>
    [b64char (b0 / 4), b64char (b0 % 4 * 16 + b1 / 16), b64char (b1 % 16 * 4), '=']
  | [b0] => [b64char (b0 / 4), b64char (b0 % 4 * 16), '=', '=']
  | [] => []

/-- Standard base64 decoder (the `base64decode` of the spec's round-trip
property): four characters at a time, with `=` padding ending the input. -/
def b64decode : List Char → List Nat
  | c0 :: c1 :: c2 :: c3 :: rest =>
    if c2 = '=' then [b64val c0 * 4 + b64val c1 / 16]
    else if c3 = '=' then
      [b64val c0 * 4 + b64val c1 / 16, b64val c1 % 16 * 16 + b64val c2 / 4]
    else
      (b64val c0 * 4 + b64val c1 / 16) :: (b64val c1 % 16 * 16 + b64val c2 / 4) ::
        (b64val c2 % 4 * 64 + b64val c3) :: b64decode rest
  | _ => []

/-- Model of the chunking loop that converts the audio byte array to a binary
string `chunkSize` bytes at a time before `btoa`; since
`String.fromCharCode` maps each byte to the character with that code, the
loop concatenates the chunks of the byte list.  Fuel-based so that it
computes by reduction; `chunkJoin` supplies adequate fuel. -/
def chunkJoinAux : Nat → Nat → List Nat → List Nat
  | 0, _, l => l
  | fuel + 1, cs, l =>
    if 0 < cs ∧ l ≠ [] then l.take cs ++ chunkJoinAux fuel cs (l.drop cs)
    else l

/-- The chunked concatenation of the source's encoding loop (`chunkSize` is
8192 in the source). -/
def chunkJoin (cs : Nat) (l : List Nat) : List Nat :=
  chunkJoinAux l.length cs l

/-- The exact SVG template string of `createPlaceholderImage` (second
revision, lines 462-467), newlines and indentation included. -/
def placeholderSvg : List Char :=
  String.toList "<svg width=\"512\" height=\"512\" xmlns=\"http://www.w3.org/2000/svg\">\n    <rect width=\"512\" height=\"512\" fill=\"#e0e7ff\"/>\n    <text x=\"256\" y=\"256\" font-family=\"Arial\" font-size=\"24\" fill=\"#6366f1\" text-anchor=\"middle\" dominant-baseline=\"middle\">\n      Story Image\n    </text>\n  </svg>"

/-- Embedding of `createPlaceholderImage`: `btoa` of the static SVG. -/
def createPlaceholderImage : List Char :=
  b64encode (placeholderSvg.map Char.toNat)

/-- Embedding of
`originalImageData.replace(/^data:image\/[a-z]+;base64,/, '')`: strip a
leading `data:image/<fmt>;base64,` prefix (`<fmt>` one or more lowercase
letters) if present, otherwise return the input unchanged. -/
def dropImageHeader (s : List Char) : List Char :=
  if s.take 11 = String.toList "data:image/" then
    let after := s.drop 11
    let fmt := after.takeWhile (fun c => decide (97 ≤ c.toNat ∧ c.toNat ≤ 122))
    let rest := after.drop fmt.length
    if fmt ≠ [] ∧ rest.take 8 = String.toList ";base64," then rest.drop 8
    else s
  else s

/-- The illustration prompt of the first revision (line 295): fixed style
directive plus the scene text truncated to 200 characters. -/
def imagePrompt (sceneText : List Char) : List Char :=
  String.toList "Children's storybook illustration, colorful and whimsical, suitable for kids: " ++ sceneText.take 200

/-- Result of one narration fetch: 2xx with body bytes, or non-2xx with the
error body text. -/
inductive FetchResult where
  | ok (bytes : List Nat)
  | err (errorText : List Char)
deriving DecidableEq

/-- True exactly when the fetch succeeded. -/
def FetchResult.isOk : FetchResult → Bool
  | .ok _ => true
  | .err _ => false

/-- Result of one illustration request (first revision): either an
`imageBase64` payload (possibly empty, which the source then rejects) or any
of the failure modes of the `try` block (non-2xx status, `errors` entries,
missing data), collapsed to the error message the source throws. -/
inductive ImageResult where
  | ok (imageBase64 : List Char)
  | err (message : List Char)
deriving DecidableEq

/-- True exactly when the illustration call produced a non-empty payload, so
the first revision's loop proceeds past the image step. -/
def ImageResult.good : ImageResult → Bool
  | .ok img => decide (img ≠ [])
  | .err _ => false

/-- Embedding of the per-page `pageData` record. -/
structure Page where
  page : Nat
  text : List Char
  lines : List SceneLine
  audioBase64 : List Char
  imageBase64 : List Char
deriving DecidableEq

instance : Inhabited Page := ⟨⟨0, [], [], [], []⟩⟩

/-- Embedding of the success response body. -/
structure Storybook where
  success : Bool
  totalPages : Nat
  storybook : List Page
deriving DecidableEq

/-- The failure responses of the handler: the closed error taxonomy, each
carrying the data the corresponding response embeds (the audio and image
failures embed the 1-indexed page number in their message). -/
inductive AsmError where
  | missingInput
  | configMissing (key : List Char)
  | noScenesFound
  | audioFailed (pageIndex : Nat) (errorText : List Char)
  | imageFailed (pageIndex : Nat) (message : List Char)
deriving DecidableEq

/-- Truthiness of the optional `originalImageData` (absent and the empty
string are falsy). -/
def truthy : Option (List Char) → Bool
  | none => false
  | some s => decide (s ≠ [])

/-- Per-scene loop of the first revision (direct generation): parse the
scene, narrate it (abort on failure), base64-encode the audio in 8192-byte
chunks, request an illustration (abort on failure or empty payload), append
the page.  A failure anywhere discards all pages built so far. -/
def assembleDirectGo (narrate : Nat → List Char → FetchResult)
    (illustrate : Nat → List Char → ImageResult) :
    Nat → List (List Char) → Except AsmError (List Page)
  | _, [] => .ok []
  | index, sceneText :: rest =>
    let lines := parseSceneLines sceneText
    match narrate index sceneText with
    | .err e => .error (.audioFailed (index + 1) e)
    | .ok bytes =>
      match illustrate index (imagePrompt sceneText) with
      | .err m => .error (.imageFailed (index + 1) m)
      | .ok img =>
        if img = [] then
          .error (.imageFailed (index + 1) (String.toList "Runware returned empty imageBase64. Check API response format."))
        else
          match assembleDirectGo narrate illustrate (index + 1) rest with
          | .error e => .error e
          | .ok pages =>
            .ok (⟨index + 1, sceneText, lines,
                  b64encode (chunkJoin 8192 bytes), img⟩ :: pages)

/-- Handler of the first revision: validate `storyText`, validate both API
keys, split into scenes, run the loop, and wrap the pages on success. -/
def assembleDirect (narrate : Nat → List Char → FetchResult)
    (illustrate : Nat → List Char → ImageResult)
    (elevenKey runwareKey : Bool) (storyText : List Char) :
    Except AsmError Storybook :=
  if storyText = [] then .error .missingInput
  else if elevenKey = false then .error (.configMissing (String.toList "ELEVENLABS_API_KEY"))
  else if runwareKey = false then .error (.configMissing (String.toList "RUNWARE_API_KEY"))
  else
    let scenes := splitScenes storyText
    if scenes = [] then .error .noScenesFound
    else
      match assembleDirectGo narrate illustrate 0 scenes with
      | .error e => .error e
      | .ok pages => .ok ⟨true, pages.length, pages⟩

/-- Per-scene loop of the second revision (reuse and placeholder): parse the
scene, narrate it (abort on failure), chunk-encode the audio, and pick the
image locally: the caller-supplied image (prefix stripped) on the last page
when it is truthy, the synthesized placeholder otherwise.  No remote image
call exists in this revision. -/
def assembleReuseGo (narrate : Nat → List Char → FetchResult)
    (orig : Option (List Char)) (total : Nat) :
    Nat → List (List Char) → Except AsmError (List Page)
  | _, [] => .ok []
  | index, sceneText :: rest =>
    let lines := parseSceneLines sceneText
    match narrate index sceneText with
    | .err e => .error (.audioFailed (index + 1) e)
    | .ok bytes =>
      let imageBase64 :=
        if index = total - 1 ∧ truthy orig then dropImageHeader (orig.getD [])
        else createPlaceholderImage
      match assembleReuseGo narrate orig total (index + 1) rest with
      | .error e => .error e
      | .ok pages =>
        .ok (⟨index + 1, sceneText, lines,
              b64encode (chunkJoin 8192 bytes), imageBase64⟩ :: pages)

/-- Handler of the second revision: validate `storyText`, validate the
narration key, split into scenes, run the loop, wrap on success. -/
def assembleReuse (narrate : Nat → List Char → FetchResult)
    (orig : Option (List Char)) (elevenKey : Bool) (storyText : List Char) :
    Except AsmError Storybook :=
  if storyText = [] then .error .missingInput
  else if elevenKey = false then .error (.configMissing (String.toList "ELEVENLABS_API_KEY"))
  else
    let scenes := splitScenes storyText
    if scenes = [] then .error .noScenesFound
    else
      match assembleReuseGo narrate orig scenes.length 0 scenes with
      | .error e => .error e
      | .ok pages => .ok ⟨true, pages.length, pages⟩

/-- Concatenating the segments of `splitNN` back with the two-newline
separator (the inverse direction of `story.split("\n\n")`). -/
def joinNN : List (List Char) → List Char
  | [] => []
  | [s] => s
  | s :: t :: rest => s ++ '\n' :: '\n' :: joinNN (t :: rest)


/-- Interleaving of `n + 1` separator strings with `n` scene strings:
`glue [w0, ..., wn] [c1, ..., cn] = w0 ++ c1 ++ w1 ++ ... ++ cn ++ wn`. -/
def glue : List (List Char) → List (List Char) → List Char
  | w :: ws, c :: cs => w ++ c ++ glue ws cs
  | w :: _, [] => w
  | [], _ => []


/-- Result of the loop body of `parseSceneLines` on one non-empty trimmed
line (the per-line emission of the claim, with the skip case factored out). -/
def emitLine (t : List Char) : SceneLine :=
  match matchDialogue t with
  | some (sp, tx) => ⟨sp, tx⟩
  | none => ⟨String.toList "Narrator", t⟩


/-- The per-line behaviour in the literal words of claim C4: a trimmed line
that starts with an ASCII letter followed by 0-48 characters from
{letters, digits, underscore, hyphen, space} and then a colon yields the
captured token (trimmed) with the remainder (trimmed); any other non-empty
line yields the Narrator line.  Used only to compare the claim's wording
against the implementation (the wording omits the optional whitespace the
regex allows before the colon and the requirement of a non-empty remainder
after it). -/
def claimedLineC4 (t : List Char) : SceneLine :=
  match t with
  | [] => ⟨String.toList "Narrator", t⟩
  | a :: rest =>
    let u := rest.takeWhile isSpeakerChar
    if isAsciiLetter a ∧ u.length ≤ 48 ∧ (rest.drop u.length).take 1 = [':'] then
      ⟨trimL (a :: u), trimL (rest.drop (u.length + 1))⟩
    else ⟨String.toList "Narrator", t⟩

/-! ### Whitespace and trimming lemmas -/

theorem dropWhile_head_false {p : Char → Bool} :
    ∀ {l : List Char} {a : Char} {r : List Char}, l.dropWhile p = a :: r → p a = false := by
  intro l
  induction l with
  | nil => intro a r h; simp at h
  | cons c cs ih =>
    intro a r h
    rw [List.dropWhile_cons] at h
    by_cases hc : p c = true
    · rw [if_pos hc] at h
      exact ih h
    · rw [if_neg hc] at h
      cases h
      simpa using hc

theorem dropWhile_idem {p : Char → Bool} (l : List Char) :
    (l.dropWhile p).dropWhile p = l.dropWhile p := by
  cases h : l.dropWhile p with
  | nil => simp
  | cons a r =>
    rw [List.dropWhile_cons, if_neg]
    simp [dropWhile_head_false h]

theorem trimRight_decomp (l : List Char) :
    ∃ w, (∀ c ∈ w, isWS c = true) ∧ l = trimRight l ++ w := by
  refine ⟨(l.reverse.takeWhile isWS).reverse, ?_, ?_⟩
  · intro c hc
    exact List.mem_takeWhile_imp (List.mem_reverse.mp hc)
  · have h2 := congrArg List.reverse (List.takeWhile_append_dropWhile isWS l.reverse)
    rw [List.reverse_append, List.reverse_reverse] at h2
    exact h2.symm

theorem trimRight_idem (l : List Char) : trimRight (trimRight l) = trimRight l := by
  unfold trimRight
  rw [List.reverse_reverse, dropWhile_idem]

theorem trimRight_eq_nil_iff {l : List Char} :
    trimRight l = [] ↔ ∀ c ∈ l, isWS c = true := by
  unfold trimRight
  rw [List.reverse_eq_nil_iff, List.dropWhile_eq_nil_iff]
  constructor
  · intro h c hc
    exact h c (List.mem_reverse.mpr hc)
  · intro h c hc
    exact h c (List.mem_reverse.mp hc)

theorem trimL_eq_nil_iff {l : List Char} :
    trimL l = [] ↔ ∀ c ∈ l, isWS c = true := by
  unfold trimL
  rw [trimRight_eq_nil_iff]
  constructor
  · intro h c hc
    have hsplit := List.takeWhile_append_dropWhile isWS l
    rw [← hsplit] at hc
    rcases List.mem_append.mp hc with h1 | h2
    · exact List.mem_takeWhile_imp h1
    · exact h c h2
  · intro h c hc
    exact h c ((List.dropWhile_sublist isWS).subset hc)

theorem trimL_decomp (l : List Char) :
    ∃ w1 w2, (∀ c ∈ w1, isWS c = true) ∧ (∀ c ∈ w2, isWS c = true) ∧
      l = w1 ++ trimL l ++ w2 := by
  obtain ⟨w2, hw2, h2⟩ := trimRight_decomp (l.dropWhile isWS)
  refine ⟨l.takeWhile isWS, w2, fun c hc => List.mem_takeWhile_imp hc, hw2, ?_⟩
  have h0 := (List.takeWhile_append_dropWhile isWS l).symm
  rw [h2] at h0
  simpa [trimL, List.append_assoc] using h0

theorem trimL_trimL (l : List Char) : trimL (trimL l) = trimL l := by
  unfold trimL
  cases h : trimRight (l.dropWhile isWS) with
  | nil => rfl
  | cons a r =>
    obtain ⟨w, hw, hdec⟩ := trimRight_decomp (l.dropWhile isWS)
    rw [h] at hdec
    have ha : isWS a = false := @dropWhile_head_false isWS _ _ _ (by simpa using hdec)
    rw [List.dropWhile_cons, if_neg (by simp [ha])]
    rw [← h]
    exact trimRight_idem _

theorem trimL_head_not_ws {l : List Char} {a : Char} {r : List Char}
    (h : trimL l = a :: r) : isWS a = false := by
  unfold trimL at h
  obtain ⟨w, hw, hdec⟩ := trimRight_decomp (l.dropWhile isWS)
  rw [h] at hdec
  exact @dropWhile_head_false isWS _ _ _ (by simpa using hdec)

theorem trimL_ne_nil_of_mem {l : List Char} {a : Char}
    (ha : a ∈ l) (hws : isWS a = false) : trimL l ≠ [] := by
  intro h
  rw [trimL_eq_nil_iff] at h
  rw [h a ha] at hws
  simp at hws

/-! ### Scene splitting lemmas -/

theorem splitNN_ne_nil (l : List Char) : splitNN l ≠ [] := by
  rw [splitNN.eq_def]
  split
  · simp
  · simp
  · split <;> simp

theorem splitNl_ne_nil (l : List Char) : splitNl l ≠ [] := by
  rw [splitNl.eq_def]
  split
  · simp
  · simp
  · split <;> simp

theorem joinNN_splitNN (l : List Char) : joinNN (splitNN l) = l := by
  induction l using splitNN.induct with
  | case1 => rfl
  | case2 rest ih =>
    have h := splitNN_ne_nil rest
    cases hs : splitNN rest with
    | nil => exact absurd hs h
    | cons s ss =>
      rw [hs] at ih
      simp only [splitNN, hs, joinNN]
      simpa using ih
  | case3 c rest hne hnil ih =>
    exact absurd hnil (splitNN_ne_nil rest)
  | case4 c rest hne s ss hs ih =>
    rw [splitNN.eq_def]
    split
    · simp_all
    · rename_i rest2 heq
      cases heq
      exact (hne rest2 rfl rfl).elim
    · rename_i c2 rest2 hne2 heq
      cases heq
      rw [hs]
      rw [hs] at ih
      cases ss with
      | nil =>
        simp only [joinNN] at ih ⊢
        rw [ih]
      | cons t ts =>
        simp only [joinNN] at ih ⊢
        rw [List.cons_append, ih]

theorem splitNN_mem_mem {c : Char} (l : List Char) :
    ∀ s ∈ splitNN l, c ∈ s → c ∈ l := by
  induction l using splitNN.induct with
  | case1 =>
    intro s hs hc
    simp only [splitNN, List.mem_singleton] at hs
    subst hs
    simp at hc
  | case2 rest ih =>
    intro s hs hc
    simp only [splitNN, List.mem_cons] at hs
    rcases hs with h | h
    · subst h; simp at hc
    · simp [ih s h hc]
  | case3 c2 rest hne hnil ih =>
    exact (splitNN_ne_nil rest hnil).elim
  | case4 c2 rest hne s2 ss hsplit ih =>
    intro s hs hc
    rw [splitNN.eq_def] at hs
    split at hs
    · simp_all
    · rename_i rest2 heq
      cases heq
      exact (hne rest2 rfl rfl).elim
    · rename_i c3 rest2 hne2 heq
      cases heq
      rw [hsplit] at hs
      simp only [List.mem_cons] at hs
      rcases hs with h | h
      · subst h
        rcases List.mem_cons.mp hc with h2 | h2
        · simp [h2]
        · have := ih s2 (by rw [hsplit]; exact List.mem_cons_self _ _) h2
          simp [this]
      · have := ih s (by rw [hsplit]; exact List.mem_cons_of_mem _ h) hc
        simp [this]

theorem splitNl_cons_ne {c : Char} (rest : List Char) (h : ¬(c = '\n')) :
    ∃ t tl, splitNl (c :: rest) = (c :: t) :: tl := by
  rw [splitNl.eq_def]
  split
  · simp_all
  · simp_all
  · rename_i c2 rest2 hne2 heq
    cases heq
    split
    · exact ⟨[], [], rfl⟩
    · exact ⟨_, _, rfl⟩

theorem glue_absorb (a w : List Char) (ws cs : List (List Char)) :
    glue ((a ++ w) :: ws) cs = a ++ glue (w :: ws) cs := by
  cases cs <;> simp [glue, List.append_assoc]

/-- Scene-splitting recovery: the two-newline join of the raw segments can be
regrouped as the kept (trimmed, non-empty) scenes interleaved with
whitespace-only separator strings. -/
theorem joinNN_glue (segs : List (List Char)) :
    ∃ ws, ws ≠ [] ∧
      ws.length = ((segs.map trimL).filter (fun s => 0 < s.length)).length + 1 ∧
      (∀ w ∈ ws, ∀ c ∈ w, isWS c = true) ∧
      joinNN segs = glue ws ((segs.map trimL).filter (fun s => 0 < s.length)) := by
  induction segs with
  | nil => exact ⟨[[]], by simp, by simp, by simp, rfl⟩
  | cons s rest ih =>
    obtain ⟨wt, hne, hlen, hws, hj⟩ := ih
    obtain ⟨w1, w2, hw1, hw2, hdecomp⟩ := trimL_decomp s
    by_cases hkeep : 0 < (trimL s).length
    · have hfilter : ((s :: rest).map trimL).filter (fun x => 0 < x.length)
          = trimL s :: ((rest.map trimL).filter (fun x => 0 < x.length)) := by
        rw [List.map_cons, List.filter_cons]
        simp [hkeep]
      cases rest with
      | nil =>
        refine ⟨[w1, w2], by simp, by rw [hfilter]; simp, ?_, ?_⟩
        · intro w hw c hc
          rcases List.mem_cons.mp hw with h | h
          · exact hw1 c (h ▸ hc)
          · rcases List.mem_cons.mp h with h2 | h2
            · exact hw2 c (h2 ▸ hc)
            · simp at h2
        · rw [hfilter]
          show joinNN [s] = glue [w1, w2] [trimL s]
          simp only [joinNN, glue]
          simpa [List.append_assoc] using hdecomp
      | cons t rest2 =>
        obtain ⟨w0, wtl, rfl⟩ : ∃ w0 wtl, wt = w0 :: wtl := by
          cases wt with
          | nil => exact absurd rfl hne
          | cons w0 wtl => exact ⟨w0, wtl, rfl⟩
        refine ⟨w1 :: (w2 ++ '\n' :: '\n' :: w0) :: wtl, by simp, ?_, ?_, ?_⟩
        · rw [hfilter]
          simp only [List.length_cons] at hlen ⊢
          omega
        · intro w hw c hc
          rcases List.mem_cons.mp hw with h | h
          · exact hw1 c (h ▸ hc)
          · rcases List.mem_cons.mp h with h2 | h2
            · rw [h2] at hc
              rcases List.mem_append.mp hc with h3 | h3
              · exact hw2 c h3
              · rcases List.mem_cons.mp h3 with h4 | h4
                · simp [h4, isWS]
                · rcases List.mem_cons.mp h4 with h5 | h5
                  · simp [h5, isWS]
                  · exact hws w0 (List.mem_cons_self _ _) c h5
            · exact hws w (List.mem_cons_of_mem _ h2) c hc
        · rw [hfilter]
          show joinNN (s :: t :: rest2) = _
          simp only [joinNN]
          rw [hj]
          show _ = glue (w1 :: (w2 ++ '\n' :: '\n' :: w0) :: wtl) (trimL s :: _)
          rw [show glue (w1 :: (w2 ++ '\n' :: '\n' :: w0) :: wtl)
              (trimL s :: ((List.map trimL (t :: rest2)).filter (fun x => 0 < x.length)))
              = w1 ++ trimL s ++ glue ((w2 ++ '\n' :: '\n' :: w0) :: wtl)
                ((List.map trimL (t :: rest2)).filter (fun x => 0 < x.length)) from rfl]
          have habs := glue_absorb (w2 ++ ['\n', '\n']) w0 wtl
            ((List.map trimL (t :: rest2)).filter (fun x => 0 < x.length))
          rw [show (w2 ++ ['\n', '\n']) ++ w0 = w2 ++ '\n' :: '\n' :: w0 by
            simp [List.append_assoc]] at habs
          rw [habs]
          conv_lhs => rw [hdecomp]
          simp [List.append_assoc]
    · have hnil : trimL s = [] := by
        cases h2 : trimL s with
        | nil => rfl
        | cons x xs => rw [h2] at hkeep; simp at hkeep
      have hallws : ∀ c ∈ s, isWS c = true := trimL_eq_nil_iff.mp hnil
      have hfilter : ((s :: rest).map trimL).filter (fun x => 0 < x.length)
          = (rest.map trimL).filter (fun x => 0 < x.length) := by
        rw [List.map_cons, List.filter_cons]
        simp [hnil]
      cases rest with
      | nil =>
        refine ⟨[s], by simp, by rw [hfilter]; simp, ?_, ?_⟩
        · intro w hw c hc
          rcases List.mem_cons.mp hw with h | h
          · exact hallws c (h ▸ hc)
          · simp at h
        · rw [hfilter]
          show joinNN [s] = glue [s] []
          simp [joinNN, glue]
      | cons t rest2 =>
        obtain ⟨w0, wtl, rfl⟩ : ∃ w0 wtl, wt = w0 :: wtl := by
          cases wt with
          | nil => exact absurd rfl hne
          | cons w0 wtl => exact ⟨w0, wtl, rfl⟩
        refine ⟨(s ++ '\n' :: '\n' :: w0) :: wtl, by simp, ?_, ?_, ?_⟩
        · rw [hfilter]
          simpa using hlen
        · intro w hw c hc
          rcases List.mem_cons.mp hw with h | h
          · rw [h] at hc
            rcases List.mem_append.mp hc with h3 | h3
            · exact hallws c h3
            · rcases List.mem_cons.mp h3 with h4 | h4
              · simp [h4, isWS]
              · rcases List.mem_cons.mp h4 with h5 | h5
                · simp [h5, isWS]
                · exact hws w0 (List.mem_cons_self _ _) c h5
          · exact hws w (List.mem_cons_of_mem _ h) c hc
        · rw [hfilter]
          show joinNN (s :: t :: rest2) = _
          simp only [joinNN]
          rw [hj]
          have habs := glue_absorb (s ++ ['\n', '\n']) w0 wtl
            ((List.map trimL (t :: rest2)).filter (fun x => 0 < x.length))
          rw [show (s ++ ['\n', '\n']) ++ w0 = s ++ '\n' :: '\n' :: w0 by
            simp [List.append_assoc]] at habs
          rw [habs]
          simp [List.append_assoc]

/-! ### Character class facts -/

theorem isAsciiLetter_not_ws {a : Char} (h : isAsciiLetter a = true) :
    isWS a = false := by
  simp only [isAsciiLetter, decide_eq_true_eq] at h
  simp only [isWS, decide_eq_false_iff_not]
  intro hmem
  simp only [List.mem_cons, List.not_mem_nil, or_false] at hmem
  omega

theorem isAsciiLetter_ne_colon {a : Char} (h : isAsciiLetter a = true) :
    (a = ':') = False := by
  simp only [eq_iff_iff, iff_false]
  intro heq
  rw [heq] at h
  simp [isAsciiLetter] at h

theorem isSpeakerChar_ne_colon {a : Char} (h : isSpeakerChar a = true) :
    (a = ':') = False := by
  simp only [eq_iff_iff, iff_false]
  intro heq
  rw [heq] at h
  simp [isSpeakerChar, isAsciiLetter] at h

theorem isWS_ne_colon {a : Char} (h : isWS a = true) : (a = ':') = False := by
  simp only [eq_iff_iff, iff_false]
  intro heq
  rw [heq] at h
  simp [isWS] at h

/-! ### More trimming lemmas -/

theorem dropWhile_append_all {p : Char → Bool} {x y : List Char}
    (hx : ∀ c ∈ x, p c = true) : (x ++ y).dropWhile p = y.dropWhile p := by
  rw [List.dropWhile_append, if_pos]
  rw [List.isEmpty_iff, List.dropWhile_eq_nil_iff]
  exact hx

theorem trimRight_append_ws {l w : List Char} (hw : ∀ c ∈ w, isWS c = true) :
    trimRight (l ++ w) = trimRight l := by
  unfold trimRight
  rw [List.reverse_append, dropWhile_append_all]
  intro c hc
  exact hw c (List.mem_reverse.mp hc)

theorem trimRight_cons {a : Char} {u : List Char} (ha : isWS a = false) :
    trimRight (a :: u) = a :: trimRight u := by
  unfold trimRight
  rw [List.reverse_cons, List.dropWhile_append]
  split
  · rename_i hemp
    rw [List.isEmpty_iff] at hemp
    rw [hemp]
    simp [List.dropWhile_cons, ha]
  · rw [List.reverse_append]
    simp

theorem trimL_cons_not_ws {a : Char} {u : List Char} (ha : isWS a = false) :
    trimL (a :: u) = a :: trimRight u := by
  unfold trimL
  rw [List.dropWhile_cons, if_neg (by simp [ha]), trimRight_cons ha]

/-- Splitting a list at a marked occurrence: `takeWhile` stops exactly at the
first element failing the test. -/
theorem takeWhile_append_middle {p : Char → Bool} {x : List Char} {y : Char}
    {r : List Char} (hx : ∀ c ∈ x, p c = true) (hy : p y = false) :
    (x ++ y :: r).takeWhile p = x ∧ (x ++ y :: r).dropWhile p = y :: r := by
  induction x with
  | nil => simp [List.takeWhile_cons, List.dropWhile_cons, hy]
  | cons a x2 ih =>
    have ha : p a = true := hx a (List.mem_cons_self _ _)
    have hx2 : ∀ c ∈ x2, p c = true := fun c hc => hx c (List.mem_cons_of_mem _ hc)
    obtain ⟨h1, h2⟩ := ih hx2
    constructor
    · rw [List.cons_append, List.takeWhile_cons, if_pos ha, h1]
    · rw [List.cons_append, List.dropWhile_cons, if_pos ha, h2]

/-! ### Dialogue regex characterization -/

/-- Declarative characterization of the dialogue regex model: `matchDialogue`
succeeds exactly on lines of the shape
letter ++ (at most 48 speaker-class characters) ++ whitespace ++ colon ++
(remainder non-empty after trimming and, once its leading whitespace is
skipped, free of line terminators, which the regex dot cannot match), and
returns the trimmed token and the trimmed remainder. -/
theorem matchDialogue_some_iff (t sp tx : List Char) :
    matchDialogue t = some (sp, tx) ↔
    ∃ a u w r, t = a :: (u ++ w ++ ':' :: r) ∧ isAsciiLetter a = true ∧
      u.all isSpeakerChar = true ∧ u.length ≤ 48 ∧ (∀ c ∈ w, isWS c = true) ∧
      trimL r ≠ [] ∧ (∀ c ∈ r.dropWhile isWS, isLineTerm c = false) ∧
      sp = trimL (a :: u) ∧ tx = trimL r := by
  constructor
  · intro h
    unfold matchDialogue at h
    split at h
    case h_2 => exact absurd h (by simp)
    rename_i a mid colonChar rest htake hdrop
    simp only [] at h
    split at h
    case isFalse => exact absurd h (by simp)
    rename_i hcond
    obtain ⟨hletter, hclass, hlen48, htx, hlt⟩ := hcond
    have hcolon : colonChar = ':' := by
      have := @dropWhile_head_false (fun c => decide (¬ c = ':')) _ _ _ hdrop
      simpa using this
    obtain ⟨w, hw, hmid⟩ := trimRight_decomp mid
    refine ⟨a, trimRight mid, w, rest, ?_, hletter, hclass, hlen48, hw, htx, hlt,
      ?_, ?_⟩
    · have hsplit := List.takeWhile_append_dropWhile (fun c => decide (¬ c = ':')) t
      rw [htake, hdrop, hcolon] at hsplit
      rw [← hsplit, ← hmid]
      simp
    · have hinj : sp = a :: trimRight mid ∧ tx = trimL rest := by
        rw [Option.some.injEq, Prod.mk.injEq] at h
        exact ⟨h.1.symm, h.2.symm⟩
      rw [hinj.1, trimL_cons_not_ws (isAsciiLetter_not_ws hletter), trimRight_idem]
    · have hinj : tx = trimL rest := by
        rw [Option.some.injEq, Prod.mk.injEq] at h
        exact h.2.symm
      exact hinj
  · intro ⟨a, u, w, r, hshape, hletter, hclass, hlen48, hw, hr, hlt, hsp, htx⟩
    have hmiddle : ∀ c ∈ (u ++ w), (fun c => decide (¬ c = ':')) c = true := by
      intro c hc
      rcases List.mem_append.mp hc with h1 | h1
      · simp [isSpeakerChar_ne_colon (by
          rw [List.all_eq_true] at hclass
          exact hclass c h1)]
      · simp [isWS_ne_colon (hw c h1)]
    have hall : ∀ c ∈ a :: (u ++ w), (fun c => decide (¬ c = ':')) c = true := by
      intro c hc
      rcases List.mem_cons.mp hc with h1 | h1
      · subst h1
        simp [isAsciiLetter_ne_colon hletter]
      · exact hmiddle c h1
    have hy : (fun c => decide (¬ c = ':')) ':' = false := by simp
    have hsplit := @takeWhile_append_middle (fun c => decide (¬ c = ':')) (a :: (u ++ w)) ':' r hall hy
    have hshape2 : t = (a :: (u ++ w)) ++ ':' :: r := by
      rw [hshape]; simp
    unfold matchDialogue
    rw [hshape2, hsplit.1, hsplit.2]
    have htr : trimRight (u ++ w) = trimRight u := trimRight_append_ws hw
    obtain ⟨w2, hw2, hu2⟩ := trimRight_decomp u
    have hmem : ∀ c ∈ trimRight u, c ∈ u := by
      intro c hc
      rw [hu2]
      exact List.mem_append.mpr (Or.inl hc)
    have hcls2 : (trimRight (u ++ w)).all isSpeakerChar = true := by
      rw [htr, List.all_eq_true]
      intro c hc
      rw [List.all_eq_true] at hclass
      exact hclass c (hmem c hc)
    have hlen2 : (trimRight (u ++ w)).length ≤ 48 := by
      rw [htr]
      have hlen3 := congrArg List.length hu2
      rw [List.length_append] at hlen3
      omega
    dsimp only
    rw [if_pos ⟨hletter, hcls2, hlen2, hr, hlt⟩]
    rw [hsp, htx, trimL_cons_not_ws (isAsciiLetter_not_ws hletter), htr]

theorem parseLine_eq_emit {l : List Char} (h : trimL l ≠ []) :
    parseLine l = some (emitLine (trimL l)) := by
  unfold parseLine emitLine
  rw [if_neg h]
  cases matchDialogue (trimL l) with
  | none => rfl
  | some p => cases p with | mk sp tx => rfl

theorem parseLine_eq_none {l : List Char} (h : trimL l = []) :
    parseLine l = none := by
  unfold parseLine
  rw [if_pos h]

/-- Structural description of `parseSceneLines`: trim each physical line,
drop the empty ones, and emit exactly one `SceneLine` per surviving line, in
order. -/
theorem parseSceneLines_eq (sceneText : List Char) :
    parseSceneLines sceneText =
      (((splitNl sceneText).map trimL).filter (fun t => t ≠ [])).map emitLine := by
  unfold parseSceneLines
  induction splitNl sceneText with
  | nil => rfl
  | cons l ls ih =>
    rw [List.filterMap_cons, List.map_cons, List.filter_cons]
    by_cases h : trimL l = []
    · rw [parseLine_eq_none h, if_neg (by simp [h]), ih]
    · rw [parseLine_eq_emit h, if_pos (by simp [h]), List.map_cons, ih]

theorem matchDialogue_parts {t sp tx : List Char}
    (h : matchDialogue t = some (sp, tx)) : sp ≠ [] ∧ tx ≠ [] := by
  rw [matchDialogue_some_iff] at h
  obtain ⟨a, u, w, r, _, hletter, _, _, _, hr, _, hsp, htx⟩ := h
  constructor
  · rw [hsp, trimL_cons_not_ws (isAsciiLetter_not_ws hletter)]
    simp
  · rw [htx]
    exact hr

theorem emitLine_parts {t : List Char} (h : t ≠ []) :
    (emitLine t).speaker ≠ [] ∧ (emitLine t).text ≠ [] := by
  unfold emitLine
  cases hm : matchDialogue t with
  | none => exact ⟨by simp, h⟩
  | some p =>
    cases p with
    | mk sp tx => exact matchDialogue_parts hm

/-- A scene that is non-empty and trimmed (as every scene produced by
`splitScenes` is) parses to at least one line. -/
theorem parseSceneLines_ne_nil {s : List Char} (htrim : trimL s = s)
    (hne : s ≠ []) : parseSceneLines s ≠ [] := by
  obtain ⟨c, rest, rfl⟩ : ∃ c rest, s = c :: rest := by
    cases s with
    | nil => exact absurd rfl hne
    | cons c rest => exact ⟨c, rest, rfl⟩
  have hc : isWS c = false := trimL_head_not_ws htrim
  have hcn : ¬(c = '\n') := by
    intro h
    rw [h] at hc
    simp [isWS] at hc
  obtain ⟨t, tl, hsplit⟩ := splitNl_cons_ne rest hcn
  unfold parseSceneLines
  rw [hsplit, List.filterMap_cons]
  have hline : trimL (c :: t) ≠ [] :=
    trimL_ne_nil_of_mem (List.mem_cons_self _ _) hc
  rw [parseLine_eq_emit hline]
  simp

/-! ### splitScenes membership -/

theorem splitScenes_mem {story s : List Char} (hs : s ∈ splitScenes story) :
    trimL s = s ∧ s ≠ [] := by
  unfold splitScenes at hs
  obtain ⟨hmem, hlen⟩ := List.mem_filter.mp hs
  obtain ⟨seg, hseg, rfl⟩ := List.mem_map.mp hmem
  simp only [decide_eq_true_eq] at hlen
  exact ⟨trimL_trimL seg, List.length_pos.mp hlen⟩

theorem splitScenes_all_ws {story : List Char}
    (h : ∀ c ∈ story, isWS c = true) : splitScenes story = [] := by
  unfold splitScenes
  rw [List.filter_eq_nil_iff]
  intro s hs
  obtain ⟨seg, hseg, rfl⟩ := List.mem_map.mp hs
  have hnil : trimL seg = [] :=
    trimL_eq_nil_iff.mpr (fun c hc => h c (splitNN_mem_mem story seg hseg hc))
  simp [hnil]

/-- The literal two-newline join is itself a whitespace interleaving of the
scenes. -/
theorem joinNN_eq_glue (cs : List (List Char)) :
    ∃ ws, (∀ w ∈ ws, ∀ c ∈ w, isWS c = true) ∧ ws.length = cs.length + 1 ∧
      joinNN cs = glue ws cs := by
  induction cs with
  | nil => exact ⟨[[]], by simp, by simp, rfl⟩
  | cons c rest ih =>
    obtain ⟨ws, hws, hlen, hj⟩ := ih
    cases rest with
    | nil => exact ⟨[[], []], by simp, by simp, by simp [joinNN, glue]⟩
    | cons t rest2 =>
      obtain ⟨w0, wtl, rfl⟩ : ∃ w0 wtl, ws = w0 :: wtl := by
        cases ws with
        | nil => simp at hlen
        | cons a b => exact ⟨a, b, rfl⟩
      refine ⟨[] :: ('\n' :: '\n' :: w0) :: wtl, ?_, ?_, ?_⟩
      · intro w hw c2 hc
        rcases List.mem_cons.mp hw with h | h
        · rw [h] at hc; simp at hc
        · rcases List.mem_cons.mp h with h2 | h2
          · rw [h2] at hc
            rcases List.mem_cons.mp hc with h3 | h3
            · simp [h3, isWS]
            · rcases List.mem_cons.mp h3 with h4 | h4
              · simp [h4, isWS]
              · exact hws w0 (List.mem_cons_self _ _) c2 h4
          · exact hws w (List.mem_cons_of_mem _ h2) c2 hc
      · simp only [List.length_cons] at hlen ⊢
        omega
      · show joinNN (c :: t :: rest2) = glue _ (c :: t :: rest2)
        simp only [joinNN]
        rw [hj]
        show _ = [] ++ c ++ glue (('\n' :: '\n' :: w0) :: wtl) (t :: rest2)
        have habs := glue_absorb ['\n', '\n'] w0 wtl (t :: rest2)
        rw [show (['\n', '\n'] ++ w0) = '\n' :: '\n' :: w0 from rfl] at habs
        rw [habs]
        simp

/-! ### Base64 and chunking lemmas -/

theorem b64val_b64char : ∀ n, n < 64 → b64val (b64char n) = n := by decide

theorem b64char_ne_pad : ∀ n, n < 64 → b64char n ≠ '=' := by decide

theorem b64decode_encode :
    ∀ l : List Nat, (∀ b ∈ l, b < 256) → b64decode (b64encode l) = l := by
  intro l
  induction l using b64encode.induct with
  | case1 b0 b1 b2 rest ih =>
    intro hb
    have h0 : b0 < 256 := hb b0 (by simp)
    have h1 : b1 < 256 := hb b1 (by simp)
    have h2 : b2 < 256 := hb b2 (by simp)
    have hrest : ∀ b ∈ rest, b < 256 := fun b h => hb b (by simp [h])
    rw [b64encode, b64decode]
    rw [if_neg (b64char_ne_pad _ (by omega)), if_neg (b64char_ne_pad _ (by omega))]
    rw [b64val_b64char _ (by omega), b64val_b64char _ (by omega),
      b64val_b64char _ (by omega), b64val_b64char _ (by omega)]
    rw [ih hrest]
    have e0 : b0 / 4 * 4 + (b0 % 4 * 16 + b1 / 16) / 16 = b0 := by omega
    have e1 : (b0 % 4 * 16 + b1 / 16) % 16 * 16 + (b1 % 16 * 4 + b2 / 64) / 4 = b1 := by
      omega
    have e2 : (b1 % 16 * 4 + b2 / 64) % 4 * 64 + b2 % 64 = b2 := by omega
    rw [e0, e1, e2]
  | case2 b0 b1 =>
    intro hb
    have h0 : b0 < 256 := hb b0 (by simp)
    have h1 : b1 < 256 := hb b1 (by simp)
    rw [b64encode, b64decode]
    rw [if_neg (b64char_ne_pad _ (by omega)), if_pos rfl]
    rw [b64val_b64char _ (by omega), b64val_b64char _ (by omega),
      b64val_b64char _ (by omega)]
    have e0 : b0 / 4 * 4 + (b0 % 4 * 16 + b1 / 16) / 16 = b0 := by omega
    have e1 : (b0 % 4 * 16 + b1 / 16) % 16 * 16 + b1 % 16 * 4 / 4 = b1 := by omega
    rw [e0, e1]
  | case3 b0 =>
    intro hb
    have h0 : b0 < 256 := hb b0 (by simp)
    rw [b64encode, b64decode]
    rw [if_pos rfl]
    rw [b64val_b64char _ (by omega), b64val_b64char _ (by omega)]
    have e0 : b0 / 4 * 4 + b0 % 4 * 16 / 16 = b0 := by omega
    rw [e0]
  | case4 =>
    intro _
    rfl

theorem chunkJoinAux_eq :
    ∀ fuel cs (l : List Nat), l.length ≤ fuel → chunkJoinAux fuel cs l = l := by
  intro fuel
  induction fuel with
  | zero => intro cs l h; rfl
  | succ f ih =>
    intro cs l h
    rw [chunkJoinAux]
    split
    · rename_i hc
      have hlen : (l.drop cs).length ≤ f := by
        rw [List.length_drop]
        have h2 := List.length_pos.mpr hc.2
        have h3 := hc.1
        omega
      rw [ih cs _ hlen, List.take_append_drop]
    · rfl

/-- The chunking loop is the identity on the byte list: the chunks
concatenate back to the input wherever the boundaries fall. -/
theorem chunkJoin_eq (cs : Nat) (l : List Nat) : chunkJoin cs l = l :=
  chunkJoinAux_eq _ _ _ (le_refl _)

/-! ### Assembler loop lemmas -/

theorem assembleReuseGo_ok {narrate : Nat → List Char → FetchResult}
    {orig : Option (List Char)} {total : Nat} :
    ∀ (scs : List (List Char)) (idx : Nat) (pages : List Page),
      assembleReuseGo narrate orig total idx scs = .ok pages →
      pages.map Page.page = List.range' (idx + 1) scs.length ∧
      pages.map Page.text = scs ∧
      pages.map Page.lines = scs.map parseSceneLines ∧
      pages.map Page.imageBase64 = (List.range' idx scs.length).map
        (fun i => if i = total - 1 ∧ truthy orig = true then
          dropImageHeader (orig.getD []) else createPlaceholderImage) ∧
      (∀ j bytes, j < scs.length → narrate (idx + j) (scs.getD j []) = .ok bytes →
        (pages.getD j default).audioBase64 = b64encode (chunkJoin 8192 bytes)) := by
  intro scs
  induction scs with
  | nil =>
    intro idx pages h
    rw [assembleReuseGo] at h
    rw [Except.ok.injEq] at h
    subst h
    refine ⟨rfl, rfl, rfl, rfl, ?_⟩
    intro j bytes hj
    simp at hj
  | cons s rest ih =>
    intro idx pages h
    rw [assembleReuseGo] at h
    cases hn : narrate idx s with
    | err e => rw [hn] at h; simp at h
    | ok bytes0 =>
      rw [hn] at h
      simp only [] at h
      cases hr : assembleReuseGo narrate orig total (idx + 1) rest with
      | error e => rw [hr] at h; simp at h
      | ok pages2 =>
        rw [hr] at h
        simp only [Except.ok.injEq] at h
        subst h
        obtain ⟨ihp, iht, ihl, ihi, iha⟩ := ih (idx + 1) pages2 hr
        refine ⟨?_, ?_, ?_, ?_, ?_⟩
        · rw [List.length_cons, List.range'_succ, List.map_cons, ihp]
        · rw [List.map_cons, iht]
        · rw [List.map_cons, List.map_cons, ihl]
        · rw [List.length_cons, List.range'_succ, List.map_cons, List.map_cons, ihi]
        · intro j bytes hj hb
          cases j with
          | zero =>
            rw [Nat.add_zero] at hb
            rw [List.getD_cons_zero] at hb
            rw [hn] at hb
            rw [FetchResult.ok.injEq] at hb
            subst hb
            rfl
          | succ j2 =>
            rw [List.getD_cons_succ] at hb ⊢
            have hshift : idx + (j2 + 1) = idx + 1 + j2 := by omega
            rw [hshift] at hb
            rw [List.length_cons] at hj
            exact iha j2 bytes (by omega) hb

theorem assembleReuseGo_fail {narrate : Nat → List Char → FetchResult}
    {orig : Option (List Char)} {total : Nat} :
    ∀ (scs : List (List Char)) (idx p : Nat) (e : List Char),
      p < scs.length →
      (∀ j, j < p → (narrate (idx + j) (scs.getD j [])).isOk = true) →
      narrate (idx + p) (scs.getD p []) = .err e →
      assembleReuseGo narrate orig total idx scs =
        .error (.audioFailed (idx + p + 1) e) := by
  intro scs
  induction scs with
  | nil =>
    intro idx p e hp
    simp at hp
  | cons s rest ih =>
    intro idx p e hp hpre hfail
    rw [assembleReuseGo]
    cases p with
    | zero =>
      rw [Nat.add_zero] at hfail
      rw [List.getD_cons_zero] at hfail
      rw [hfail]
    | succ p2 =>
      have h0 : (narrate (idx + 0) ((s :: rest).getD 0 [])).isOk = true :=
        hpre 0 (Nat.succ_pos p2)
      rw [Nat.add_zero, List.getD_cons_zero] at h0
      cases hn : narrate idx s with
      | err e2 => rw [hn] at h0; simp [FetchResult.isOk] at h0
      | ok bytes0 =>
        dsimp only
        have hrec : assembleReuseGo narrate orig total (idx + 1) rest =
            .error (.audioFailed (idx + 1 + p2 + 1) e) := by
          apply ih (idx + 1) p2 e
          · rw [List.length_cons] at hp; omega
          · intro j hj
            have := hpre (j + 1) (by omega)
            rw [List.getD_cons_succ] at this
            have hshift : idx + (j + 1) = idx + 1 + j := by omega
            rw [hshift] at this
            exact this
          · rw [List.getD_cons_succ] at hfail
            have hshift : idx + (p2 + 1) = idx + 1 + p2 := by omega
            rw [hshift] at hfail
            exact hfail
        rw [hrec]
        have : idx + 1 + p2 + 1 = idx + (p2 + 1) + 1 := by omega
        rw [this]

theorem assembleDirectGo_ok {narrate : Nat → List Char → FetchResult}
    {illustrate : Nat → List Char → ImageResult} :
    ∀ (scs : List (List Char)) (idx : Nat) (pages : List Page),
      assembleDirectGo narrate illustrate idx scs = .ok pages →
      pages.map Page.page = List.range' (idx + 1) scs.length ∧
      pages.map Page.text = scs ∧
      pages.map Page.lines = scs.map parseSceneLines ∧
      (∀ j bytes, j < scs.length → narrate (idx + j) (scs.getD j []) = .ok bytes →
        (pages.getD j default).audioBase64 = b64encode (chunkJoin 8192 bytes)) := by
  intro scs
  induction scs with
  | nil =>
    intro idx pages h
    rw [assembleDirectGo] at h
    rw [Except.ok.injEq] at h
    subst h
    refine ⟨rfl, rfl, rfl, ?_⟩
    intro j bytes hj
    simp at hj
  | cons s rest ih =>
    intro idx pages h
    rw [assembleDirectGo] at h
    cases hn : narrate idx s with
    | err e => rw [hn] at h; simp at h
    | ok bytes0 =>
      rw [hn] at h
      simp only [] at h
      cases hi : illustrate idx (imagePrompt s) with
      | err m => rw [hi] at h; simp at h
      | ok img =>
        rw [hi] at h
        simp only [] at h
        by_cases himg : img = []
        · rw [if_pos himg] at h; simp at h
        · rw [if_neg himg] at h
          cases hr : assembleDirectGo narrate illustrate (idx + 1) rest with
          | error e => rw [hr] at h; simp at h
          | ok pages2 =>
            rw [hr] at h
            simp only [Except.ok.injEq] at h
            subst h
            obtain ⟨ihp, iht, ihl, iha⟩ := ih (idx + 1) pages2 hr
            refine ⟨?_, ?_, ?_, ?_⟩
            · rw [List.length_cons, List.range'_succ, List.map_cons, ihp]
            · rw [List.map_cons, iht]
            · rw [List.map_cons, List.map_cons, ihl]
            · intro j bytes hj hb
              cases j with
              | zero =>
                rw [Nat.add_zero] at hb
                rw [List.getD_cons_zero] at hb
                rw [hn] at hb
                rw [FetchResult.ok.injEq] at hb
                subst hb
                rfl
              | succ j2 =>
                rw [List.getD_cons_succ] at hb ⊢
                have hshift : idx + (j2 + 1) = idx + 1 + j2 := by omega
                rw [hshift] at hb
                rw [List.length_cons] at hj
                exact iha j2 bytes (by omega) hb

theorem assembleDirectGo_fail {narrate : Nat → List Char → FetchResult}
    {illustrate : Nat → List Char → ImageResult} :
    ∀ (scs : List (List Char)) (idx p : Nat) (e : List Char),
      p < scs.length →
      (∀ j, j < p → (narrate (idx + j) (scs.getD j [])).isOk = true ∧
        (illustrate (idx + j) (imagePrompt (scs.getD j []))).good = true) →
      narrate (idx + p) (scs.getD p []) = .err e →
      assembleDirectGo narrate illustrate idx scs =
        .error (.audioFailed (idx + p + 1) e) := by
  intro scs
  induction scs with
  | nil =>
    intro idx p e hp
    simp at hp
  | cons s rest ih =>
    intro idx p e hp hpre hfail
    rw [assembleDirectGo]
    cases p with
    | zero =>
      rw [Nat.add_zero] at hfail
      rw [List.getD_cons_zero] at hfail
      rw [hfail]
    | succ p2 =>
      obtain ⟨h0, h0i⟩ := hpre 0 (Nat.succ_pos p2)
      rw [Nat.add_zero, List.getD_cons_zero] at h0 h0i
      cases hn : narrate idx s with
      | err e2 => rw [hn] at h0; simp [FetchResult.isOk] at h0
      | ok bytes0 =>
        dsimp only
        cases hi : illustrate idx (imagePrompt s) with
        | err m => rw [hi] at h0i; simp [ImageResult.good] at h0i
        | ok img =>
          rw [hi] at h0i
          simp only [ImageResult.good, decide_eq_true_eq] at h0i
          dsimp only
          rw [if_neg h0i]
          have hrec : assembleDirectGo narrate illustrate (idx + 1) rest =
              .error (.audioFailed (idx + 1 + p2 + 1) e) := by
            apply ih (idx + 1) p2 e
            · rw [List.length_cons] at hp; omega
            · intro j hj
              have hall := hpre (j + 1) (by omega)
              rw [List.getD_cons_succ] at hall
              have hshift : idx + (j + 1) = idx + 1 + j := by omega
              rw [hshift] at hall
              exact hall
            · rw [List.getD_cons_succ] at hfail
              have hshift : idx + (p2 + 1) = idx + 1 + p2 := by omega
              rw [hshift] at hfail
              exact hfail
          rw [hrec]
          have : idx + 1 + p2 + 1 = idx + (p2 + 1) + 1 := by omega
          rw [this]

/-! ### Top-level handler lemmas -/

theorem assembleReuse_ok_parts {narrate : Nat → List Char → FetchResult}
    {orig : Option (List Char)} {key : Bool} {story : List Char} {sb : Storybook}
    (h : assembleReuse narrate orig key story = .ok sb) :
    ¬(splitScenes story = []) ∧
    sb.success = true ∧ sb.totalPages = sb.storybook.length ∧
    assembleReuseGo narrate orig (splitScenes story).length 0 (splitScenes story) =
      .ok sb.storybook := by
  unfold assembleReuse at h
  split at h
  · simp at h
  · split at h
    · simp at h
    · simp only [] at h
      split at h
      · simp at h
      · rename_i hsc
        cases hg : assembleReuseGo narrate orig (splitScenes story).length 0
            (splitScenes story) with
        | error e => rw [hg] at h; simp at h
        | ok pages =>
          rw [hg] at h
          simp only [] at h
          rw [Except.ok.injEq] at h
          subst h
          exact ⟨hsc, rfl, rfl, rfl⟩

theorem assembleDirect_ok_parts {narrate : Nat → List Char → FetchResult}
    {illustrate : Nat → List Char → ImageResult} {ek rk : Bool}
    {story : List Char} {sb : Storybook}
    (h : assembleDirect narrate illustrate ek rk story = .ok sb) :
    ¬(splitScenes story = []) ∧
    sb.success = true ∧ sb.totalPages = sb.storybook.length ∧
    assembleDirectGo narrate illustrate 0 (splitScenes story) = .ok sb.storybook := by
  unfold assembleDirect at h
  split at h
  · simp at h
  · split at h
    · simp at h
    · split at h
      · simp at h
      · simp only [] at h
        split at h
        · simp at h
        · rename_i hsc
          cases hg : assembleDirectGo narrate illustrate 0 (splitScenes story) with
          | error e => rw [hg] at h; simp at h
          | ok pages =>
            rw [hg] at h
            simp only [] at h
            rw [Except.ok.injEq] at h
            subst h
            exact ⟨hsc, rfl, rfl, rfl⟩

theorem assembleReuse_err {narrate : Nat → List Char → FetchResult}
    {orig : Option (List Char)} {story : List Char} {e : AsmError}
    (hne : ¬(story = [])) (hsc : ¬(splitScenes story = []))
    (hgo : assembleReuseGo narrate orig (splitScenes story).length 0
      (splitScenes story) = .error e) :
    assembleReuse narrate orig true story = .error e := by
  unfold assembleReuse
  rw [if_neg hne, if_neg (by simp)]
  dsimp only
  rw [if_neg hsc, hgo]

theorem assembleDirect_err {narrate : Nat → List Char → FetchResult}
    {illustrate : Nat → List Char → ImageResult} {story : List Char} {e : AsmError}
    (hne : ¬(story = [])) (hsc : ¬(splitScenes story = []))
    (hgo : assembleDirectGo narrate illustrate 0 (splitScenes story) = .error e) :
    assembleDirect narrate illustrate true true story = .error e := by
  unfold assembleDirect
  rw [if_neg hne, if_neg (by simp), if_neg (by simp)]
  dsimp only
  rw [if_neg hsc, hgo]

/-! ### Claim theorems -/

/-- C3: for every story string, `splitScenes` contains no element that is
empty after trimming, and the story is recovered from the returned scenes up
to whitespace at the scene boundaries: the story itself is the scenes
interleaved with whitespace-only separator strings, and the literal
two-newline join of the scenes is the same interleaving with `"\n\n"`
separators (so the join reproduces the story up to whitespace trimming at
scene boundaries). -/
theorem claim3_split_scenes (story : List Char) :
    (∀ s ∈ splitScenes story, trimL s ≠ []) ∧
    (∃ ws, ws ≠ [] ∧ ws.length = (splitScenes story).length + 1 ∧
      (∀ w ∈ ws, ∀ c ∈ w, isWS c = true) ∧
      story = glue ws (splitScenes story)) ∧
    (∃ ws2, (∀ w ∈ ws2, ∀ c ∈ w, isWS c = true) ∧
      ws2.length = (splitScenes story).length + 1 ∧
      joinNN (splitScenes story) = glue ws2 (splitScenes story)) := by
  refine ⟨?_, ?_, ?_⟩
  · intro s hs
    obtain ⟨htrim, hne⟩ := splitScenes_mem hs
    rw [htrim]
    exact hne
  · obtain ⟨ws, h1, h2, h3, h4⟩ := joinNN_glue (splitNN story)
    refine ⟨ws, h1, h2, h3, ?_⟩
    exact (joinNN_splitNN story).symm.trans h4
  · exact joinNN_eq_glue (splitScenes story)

/-- Witness for C3 at the concrete story of spec Scenario A (the first
conjunct carries a membership hypothesis). -/
theorem claim3_witness :
    (String.toList "Hello there.") ∈
      splitScenes (String.toList "Hello there.\n\nAlice: Where are we?") ∧
    trimL (String.toList "Hello there.") ≠ [] :=
  ⟨by decide,
    (claim3_split_scenes
      (String.toList "Hello there.\n\nAlice: Where are we?")).1
      (String.toList "Hello there.") (by decide)⟩

/-- C9: every `SceneLine` emitted by the parser has a non-empty speaker and a
non-empty text, on every scene string. -/
theorem claim9_nonempty_fields (scene : List Char) :
    ∀ l ∈ parseSceneLines scene, l.speaker ≠ [] ∧ l.text ≠ [] := by
  intro l hl
  rw [parseSceneLines_eq] at hl
  obtain ⟨t, ht, rfl⟩ := List.mem_map.mp hl
  obtain ⟨htm, htne⟩ := List.mem_filter.mp ht
  exact emitLine_parts (by simpa using htne)

/-- Witness for C9: a dialogue line and a narrator line of a concrete scene. -/
theorem claim9_witness :
    (⟨String.toList "Alice", String.toList "Hi"⟩ : SceneLine) ∈
      parseSceneLines (String.toList "Alice: Hi\nplain prose") ∧
    (String.toList "Alice" ≠ [] ∧ String.toList "Hi" ≠ []) :=
  ⟨by decide,
    claim9_nonempty_fields (String.toList "Alice: Hi\nplain prose")
      ⟨String.toList "Alice", String.toList "Hi"⟩ (by decide)⟩

/-- C8: the chunked base64 audio encoding round-trips exactly.  First part:
for every chunk size and every byte sequence, the chunking loop concatenates
back to the byte list (so chunk boundaries are immaterial) and decoding the
encoding recovers the bytes.  Second and third parts: in both handler
revisions, decoding the `audioBase64` stored on page `j + 1` of a
successfully assembled storybook yields exactly the bytes the narration call
for that page returned. -/
theorem claim8_audio_roundtrip :
    (∀ cs (bytes : List Nat), 0 < cs → (∀ b ∈ bytes, b < 256) →
      chunkJoin cs bytes = bytes ∧
      b64decode (b64encode (chunkJoin cs bytes)) = bytes) ∧
    (∀ narrate orig key story sb,
      assembleReuse narrate orig key story = .ok sb →
      ∀ j bytes, j < (splitScenes story).length →
        narrate j ((splitScenes story).getD j []) = .ok bytes →
        (∀ b ∈ bytes, b < 256) →
        b64decode ((sb.storybook.getD j default).audioBase64) = bytes) ∧
    (∀ narrate illustrate ek rk story sb,
      assembleDirect narrate illustrate ek rk story = .ok sb →
      ∀ j bytes, j < (splitScenes story).length →
        narrate j ((splitScenes story).getD j []) = .ok bytes →
        (∀ b ∈ bytes, b < 256) →
        b64decode ((sb.storybook.getD j default).audioBase64) = bytes) := by
  refine ⟨?_, ?_, ?_⟩
  · intro cs bytes hcs hb
    refine ⟨chunkJoin_eq cs bytes, ?_⟩
    rw [chunkJoin_eq cs bytes]
    exact b64decode_encode bytes hb
  · intro narrate orig key story sb h j bytes hj hbytes hb
    obtain ⟨-, -, -, hgo⟩ := assembleReuse_ok_parts h
    obtain ⟨-, -, -, -, haudio⟩ :=
      assembleReuseGo_ok (splitScenes story) 0 sb.storybook hgo
    have := haudio j bytes hj (by simpa using hbytes)
    rw [this, chunkJoin_eq]
    exact b64decode_encode bytes hb
  · intro narrate illustrate ek rk story sb h j bytes hj hbytes hb
    obtain ⟨-, -, -, hgo⟩ := assembleDirect_ok_parts h
    obtain ⟨-, -, -, haudio⟩ :=
      assembleDirectGo_ok (splitScenes story) 0 sb.storybook hgo
    have := haudio j bytes hj (by simpa using hbytes)
    rw [this, chunkJoin_eq]
    exact b64decode_encode bytes hb

/-- Witness for C8: a chunk size of 3 with a byte list hitting the padding
cases, plus evaluation on concrete bytes through the round trip. -/
theorem claim8_witness :
    0 < 3 ∧ (∀ b ∈ ([0, 255, 10, 99] : List Nat), b < 256) ∧
    b64decode (b64encode (chunkJoin 3 [0, 255, 10, 99])) = [0, 255, 10, 99] :=
  ⟨by decide, by decide,
    (claim8_audio_roundtrip.1 3 [0, 255, 10, 99] (by decide) (by decide)).2⟩

/-- C6: the two input-validation failures are distinct and ordered.  An
empty `storyText` fails with `MissingInput` whatever the credentials and the
oracle (so before any splitting or remote call); a non-empty but
whitespace-only input passes the presence check and fails with
`NoScenesFound`, again for every oracle (so no remote call is observable)
and no Storybook is returned in either case. -/
theorem claim6_validation :
    (∀ narrate illustrate orig ek rk key,
      assembleDirect narrate illustrate ek rk [] = .error .missingInput ∧
      assembleReuse narrate orig key [] = .error .missingInput) ∧
    (∀ narrate illustrate orig story, story ≠ [] →
      (∀ c ∈ story, isWS c = true) →
      assembleDirect narrate illustrate true true story = .error .noScenesFound ∧
      assembleReuse narrate orig true story = .error .noScenesFound) := by
  constructor
  · intro narrate illustrate orig ek rk key
    constructor
    · unfold assembleDirect
      rw [if_pos rfl]
    · unfold assembleReuse
      rw [if_pos rfl]
  · intro narrate illustrate orig story hne hws
    have hsc : splitScenes story = [] := splitScenes_all_ws hws
    constructor
    · unfold assembleDirect
      rw [if_neg hne, if_neg (by simp), if_neg (by simp)]
      dsimp only
      rw [if_pos hsc]
    · unfold assembleReuse
      rw [if_neg hne, if_neg (by simp)]
      dsimp only
      rw [if_pos hsc]

/-- Witness for C6 at the whitespace-only input of spec Scenario C. -/
theorem claim6_witness :
    String.toList "   \n\n  " ≠ [] ∧
    (∀ c ∈ String.toList "   \n\n  ", isWS c = true) ∧
    assembleReuse (fun _ _ => FetchResult.ok []) none true
      (String.toList "   \n\n  ") = .error .noScenesFound :=
  ⟨by decide, by decide,
    ((claim6_validation.2 (fun _ _ => FetchResult.ok [])
      (fun _ _ => ImageResult.ok []) none (String.toList "   \n\n  ")
      (by decide) (by decide)).2)⟩

/-- C5: a scene with zero parseable lines still degrades, in the parse step
with the documented fallback (`processScene`), to exactly one `Narrator`
line carrying the full scene text; and the pages emitted by either handler
never carry an empty `lines` sequence, because every scene produced by
`splitScenes` is trimmed and non-empty and hence parses to at least one
line. -/
theorem claim5_narrator_fallback :
    (∀ s, parseSceneLines s = [] →
      processSceneLines s = [⟨String.toList "Narrator", s⟩]) ∧
    (∀ narrate illustrate ek rk story sb,
      assembleDirect narrate illustrate ek rk story = .ok sb →
      ∀ p ∈ sb.storybook, p.lines ≠ []) ∧
    (∀ narrate orig key story sb,
      assembleReuse narrate orig key story = .ok sb →
      ∀ p ∈ sb.storybook, p.lines ≠ []) := by
  refine ⟨?_, ?_, ?_⟩
  · intro s h
    simp [processSceneLines, h]
  · intro narrate illustrate ek rk story sb h p hp
    obtain ⟨-, -, -, hgo⟩ := assembleDirect_ok_parts h
    obtain ⟨-, -, hlines, -⟩ :=
      assembleDirectGo_ok (splitScenes story) 0 sb.storybook hgo
    have hmem : p.lines ∈ sb.storybook.map Page.lines :=
      List.mem_map_of_mem _ hp
    rw [hlines] at hmem
    obtain ⟨s2, hs2, heq⟩ := List.mem_map.mp hmem
    obtain ⟨htrim, hne2⟩ := splitScenes_mem hs2
    rw [← heq]
    exact parseSceneLines_ne_nil htrim hne2
  · intro narrate orig key story sb h p hp
    obtain ⟨-, -, -, hgo⟩ := assembleReuse_ok_parts h
    obtain ⟨-, -, hlines, -, -⟩ :=
      assembleReuseGo_ok (splitScenes story) 0 sb.storybook hgo
    have hmem : p.lines ∈ sb.storybook.map Page.lines :=
      List.mem_map_of_mem _ hp
    rw [hlines] at hmem
    obtain ⟨s2, hs2, heq⟩ := List.mem_map.mp hmem
    obtain ⟨htrim, hne2⟩ := splitScenes_mem hs2
    rw [← heq]
    exact parseSceneLines_ne_nil htrim hne2

/-- Witness for C5: the whitespace-only scene string parses to nothing and
the fallback degrades it to one Narrator line with the full text. -/
theorem claim5_witness :
    parseSceneLines (String.toList " \n ") = [] ∧
    processSceneLines (String.toList " \n ") =
      [⟨String.toList "Narrator", String.toList " \n "⟩] :=
  ⟨by decide, claim5_narrator_fallback.1 (String.toList " \n ") (by decide)⟩

theorem pages_numbering_of_maps {pages : List Page} {scenes : List (List Char)}
    (hp : pages.map Page.page = List.range' 1 scenes.length)
    (ht : pages.map Page.text = scenes) :
    pages.length = scenes.length ∧
    (∀ k, k < scenes.length →
      pages[k]?.map Page.page = some (k + 1) ∧
      pages[k]?.map Page.text = scenes[k]?) := by
  have hlen : pages.length = scenes.length := by
    have h0 := congrArg List.length ht
    simpa using h0
  refine ⟨hlen, ?_⟩
  intro k hk
  constructor
  · have h1 := congrArg (fun l => l[k]?) hp
    simp only [List.getElem?_map] at h1
    rw [List.getElem?_range' 1 1 hk] at h1
    have he : 1 + 1 * k = k + 1 := by omega
    rw [he] at h1
    exact h1
  · have h2 := congrArg (fun l => l[k]?) ht
    simp only [List.getElem?_map] at h2
    exact h2

/-- C2: in both handler revisions, every successfully assembled storybook
built from the story's scenes has `totalPages` equal to the number of
scenes, its page numbers are exactly `1, 2, ..., N` in order (1-indexed,
strictly increasing, no gaps, matching scene order), and each page's `text`
is the corresponding scene string unmodified. -/
theorem claim2_page_numbering :
    (∀ narrate illustrate ek rk story sb,
      assembleDirect narrate illustrate ek rk story = .ok sb →
      sb.totalPages = (splitScenes story).length ∧
      sb.storybook.length = (splitScenes story).length ∧
      sb.storybook.map Page.page = List.range' 1 (splitScenes story).length ∧
      sb.storybook.map Page.text = splitScenes story ∧
      (∀ k, k < (splitScenes story).length →
        sb.storybook[k]?.map Page.page = some (k + 1) ∧
        sb.storybook[k]?.map Page.text = (splitScenes story)[k]?)) ∧
    (∀ narrate orig key story sb,
      assembleReuse narrate orig key story = .ok sb →
      sb.totalPages = (splitScenes story).length ∧
      sb.storybook.length = (splitScenes story).length ∧
      sb.storybook.map Page.page = List.range' 1 (splitScenes story).length ∧
      sb.storybook.map Page.text = splitScenes story ∧
      (∀ k, k < (splitScenes story).length →
        sb.storybook[k]?.map Page.page = some (k + 1) ∧
        sb.storybook[k]?.map Page.text = (splitScenes story)[k]?)) := by
  constructor
  · intro narrate illustrate ek rk story sb h
    obtain ⟨-, -, htp, hgo⟩ := assembleDirect_ok_parts h
    obtain ⟨hp, ht, -, -⟩ :=
      assembleDirectGo_ok (splitScenes story) 0 sb.storybook hgo
    rw [Nat.zero_add] at hp
    obtain ⟨hlen, hpoint⟩ := pages_numbering_of_maps hp ht
    exact ⟨htp.trans hlen, hlen, hp, ht, hpoint⟩
  · intro narrate orig key story sb h
    obtain ⟨-, -, htp, hgo⟩ := assembleReuse_ok_parts h
    obtain ⟨hp, ht, -, -, -⟩ :=
      assembleReuseGo_ok (splitScenes story) 0 sb.storybook hgo
    rw [Nat.zero_add] at hp
    obtain ⟨hlen, hpoint⟩ := pages_numbering_of_maps hp ht
    exact ⟨htp.trans hlen, hlen, hp, ht, hpoint⟩

/-- Witness for C2 at a concrete two-scene story. -/
theorem claim2_witness :
    (assembleReuse (fun _ _ => FetchResult.ok []) none true
      (String.toList "One\n\nTwo")).map
        (fun sb => (sb.totalPages, sb.storybook.map Page.page)) =
      .ok ((splitScenes (String.toList "One\n\nTwo")).length,
        List.range' 1 (splitScenes (String.toList "One\n\nTwo")).length) := by
  have h : assembleReuse (fun _ _ => FetchResult.ok []) none true
      (String.toList "One\n\nTwo") =
      .ok ⟨true, 2,
        [⟨1, String.toList "One",
          [⟨String.toList "Narrator", String.toList "One"⟩], [],
          createPlaceholderImage⟩,
        ⟨2, String.toList "Two",
          [⟨String.toList "Narrator", String.toList "Two"⟩], [],
          createPlaceholderImage⟩]⟩ := rfl
  have h2 := claim2_page_numbering.2 (fun _ _ => FetchResult.ok []) none true
    (String.toList "One\n\nTwo") _ h
  rw [h]
  simp only [Except.map]
  rw [Except.ok.injEq, Prod.mk.injEq]
  exact ⟨h2.1, h2.2.2.1⟩

/-- C1: in both handler revisions, if the narration call for page `k`
(1-indexed) returns a non-2xx status (with every earlier page's remote calls
succeeding, so that the call for page `k` is actually reached), the whole
assembly evaluates to the `audioFailed` error carrying page index `k` and
the upstream error body: no `Storybook` value is produced, and the pages
already built for earlier scenes are discarded (the `Except.error` result
carries no page sequence, so the caller never observes a partial one). -/
theorem claim1_audio_failure_aborts
    (narrate : Nat → List Char → FetchResult)
    (illustrate : Nat → List Char → ImageResult)
    (orig : Option (List Char)) (story : List Char) (k : Nat) (e : List Char)
    (hk1 : 1 ≤ k) (hk2 : k ≤ (splitScenes story).length)
    (hpre : ∀ j, j < k - 1 →
      (narrate j ((splitScenes story).getD j [])).isOk = true ∧
      (illustrate j (imagePrompt ((splitScenes story).getD j []))).good = true)
    (hfail : narrate (k - 1) ((splitScenes story).getD (k - 1) []) = .err e) :
    assembleDirect narrate illustrate true true story =
      .error (.audioFailed k e) ∧
    assembleReuse narrate orig true story = .error (.audioFailed k e) := by
  have hlen : 0 < (splitScenes story).length := by omega
  have hsc : ¬(splitScenes story = []) := by
    intro h0
    rw [h0] at hlen
    simp at hlen
  have hne : ¬(story = []) := by
    intro h0
    subst h0
    exact hsc rfl
  have hd := @assembleDirectGo_fail narrate illustrate
    (splitScenes story) 0 (k - 1) e (by omega)
    (fun j hj => by simpa using hpre j hj)
    (by simpa using hfail)
  have hr := @assembleReuseGo_fail narrate orig
    ((splitScenes story).length)
    (splitScenes story) 0 (k - 1) e (by omega)
    (fun j hj => by simpa using (hpre j hj).1)
    (by simpa using hfail)
  have hkk : 0 + (k - 1) + 1 = k := by omega
  rw [hkk] at hd hr
  exact ⟨assembleDirect_err hne hsc hd, assembleReuse_err hne hsc hr⟩

/-- Witness for C1: a two-scene story whose second narration call fails. -/
theorem claim1_witness :
    assembleDirect
      (fun j _ => if j = 0 then FetchResult.ok []
        else FetchResult.err (String.toList "bad"))
      (fun _ _ => ImageResult.ok (String.toList "x")) true true
      (String.toList "One\n\nTwo") =
      .error (.audioFailed 2 (String.toList "bad")) :=
  (claim1_audio_failure_aborts
    (fun j _ => if j = 0 then FetchResult.ok []
      else FetchResult.err (String.toList "bad"))
    (fun _ _ => ImageResult.ok (String.toList "x")) none
    (String.toList "One\n\nTwo") 2 (String.toList "bad")
    (by decide) (by decide) (by decide) (by decide)).1

/-- C10: under the reuse-and-placeholder revision with `originalImageData`
absent, every page (the final page included) carries the fixed placeholder
image, which is non-empty; consequently `imageBase64` is identical across
all pages of the storybook. -/
theorem claim10_placeholder (narrate : Nat → List Char → FetchResult)
    (key : Bool) (story : List Char) (sb : Storybook)
    (h : assembleReuse narrate none key story = .ok sb) :
    ∀ p ∈ sb.storybook,
      p.imageBase64 = createPlaceholderImage ∧ p.imageBase64 ≠ [] := by
  intro p hp
  obtain ⟨-, -, -, hgo⟩ := assembleReuse_ok_parts h
  obtain ⟨-, -, -, himg, -⟩ :=
    assembleReuseGo_ok (splitScenes story) 0 sb.storybook hgo
  have hmem : p.imageBase64 ∈ sb.storybook.map Page.imageBase64 :=
    List.mem_map_of_mem _ hp
  rw [himg] at hmem
  obtain ⟨i, hi, heq⟩ := List.mem_map.mp hmem
  rw [if_neg (fun hcond => by simp [truthy] at hcond)] at heq
  refine ⟨heq.symm, ?_⟩
  rw [← heq]
  decide

/-- Witness for C10 at a concrete two-scene story with no original image. -/
theorem claim10_witness :
    (assembleReuse (fun _ _ => FetchResult.ok [7]) none true
      (String.toList "One\n\nTwo")).map
        (fun sb => sb.storybook.map Page.imageBase64) =
      .ok [createPlaceholderImage, createPlaceholderImage] ∧
    createPlaceholderImage ≠ [] := by
  have h : assembleReuse (fun _ _ => FetchResult.ok [7]) none true
      (String.toList "One\n\nTwo") =
      .ok ⟨true, 2,
        [⟨1, String.toList "One",
          [⟨String.toList "Narrator", String.toList "One"⟩],
          b64encode (chunkJoin 8192 [7]), createPlaceholderImage⟩,
        ⟨2, String.toList "Two",
          [⟨String.toList "Narrator", String.toList "Two"⟩],
          b64encode (chunkJoin 8192 [7]), createPlaceholderImage⟩]⟩ := rfl
  constructor
  · rw [h]
    rfl
  · exact (claim10_placeholder (fun _ _ => FetchResult.ok [7]) true
      (String.toList "One\n\nTwo") _ h _ (List.mem_cons_self _ _)).2

/-- C7 counterexample: the claim as stated quantifies over every invocation
"where originalImageData is supplied".  Supplying the empty string is such
an invocation (the request field is present), and stripping a prefix from
the empty string leaves the empty string, so the claim predicts that the
final page carries the empty image.  The implementation instead tests the
truthiness of `originalImageData`, the empty string is falsy, and the final
page carries the placeholder image, which differs from the predicted
value. -/
theorem claim7_cex :
    truthy (some []) = false ∧
    dropImageHeader [] = [] ∧
    (assembleReuse (fun _ _ => FetchResult.ok []) (some []) true
      (String.toList "a\n\nb\n\nc")).map
        (fun sb => sb.storybook.getLast?.map Page.imageBase64) =
      .ok (some createPlaceholderImage) ∧
    createPlaceholderImage ≠ dropImageHeader [] := by
  refine ⟨rfl, rfl, rfl, by decide⟩

/-- C7 (amended: with a non-empty `originalImageData` supplied): under the
reuse-and-placeholder revision, every page except the last carries the
synthesized placeholder image, and the last page carries the supplied image
with a leading `data:image/<fmt>;base64,` prefix stripped and otherwise
identical to the input.  No remote image oracle exists in this revision, so
no remote image call is made for any page. -/
theorem claim7_image_policy
    (narrate : Nat → List Char → FetchResult) (d : List Char)
    (story : List Char) (sb : Storybook)
    (hd : d ≠ [])
    (h : assembleReuse narrate (some d) true story = .ok sb) :
    sb.storybook ≠ [] ∧
    (∀ k, k + 1 < sb.storybook.length →
      sb.storybook[k]?.map Page.imageBase64 = some createPlaceholderImage) ∧
    sb.storybook.getLast?.map Page.imageBase64 = some (dropImageHeader d) := by
  obtain ⟨hsc, -, -, hgo⟩ := assembleReuse_ok_parts h
  obtain ⟨-, htext, -, himg, -⟩ :=
    assembleReuseGo_ok (splitScenes story) 0 sb.storybook hgo
  have hlen : sb.storybook.length = (splitScenes story).length := by
    have h0 := congrArg List.length htext
    simpa using h0
  have hN : 0 < (splitScenes story).length := List.length_pos.mpr hsc
  have hne : sb.storybook ≠ [] := by
    rw [← List.length_pos, hlen]
    exact hN
  refine ⟨hne, ?_, ?_⟩
  · intro k hk
    have h1 := congrArg (fun l => l[k]?) himg
    simp only [List.getElem?_map] at h1
    have hkN : k < (splitScenes story).length := by omega
    rw [List.getElem?_range' 0 1 hkN] at h1
    simp only [Option.map_some'] at h1
    rw [h1]
    congr 1
    have hne2 : ¬(0 + 1 * k = (splitScenes story).length - 1 ∧
        truthy (some d) = true) := by
      intro hcond
      have h3 := hcond.1
      omega
    rw [if_neg hne2]
  · rw [List.getLast?_eq_getElem?]
    have h1 := congrArg (fun l => l[sb.storybook.length - 1]?) himg
    simp only [List.getElem?_map] at h1
    have hidx : sb.storybook.length - 1 < (splitScenes story).length := by omega
    rw [List.getElem?_range' 0 1 hidx] at h1
    simp only [Option.map_some'] at h1
    rw [h1]
    congr 1
    have hcond : 0 + 1 * (sb.storybook.length - 1) =
        (splitScenes story).length - 1 ∧ truthy (some d) = true := by
      constructor
      · omega
      · simp [truthy, hd]
    rw [if_pos hcond]
    rfl

/-- Witness for the amended C7 at a concrete two-scene story with a
prefixed original image. -/
theorem claim7_witness :
    String.toList "data:image/png;base64,XY" ≠ [] ∧
    (assembleReuse (fun _ _ => FetchResult.ok [])
      (some (String.toList "data:image/png;base64,XY")) true
      (String.toList "One\n\nTwo")).map
        (fun sb => sb.storybook.getLast?.map Page.imageBase64) =
      .ok (some (dropImageHeader (String.toList "data:image/png;base64,XY"))) := by
  have h : assembleReuse (fun _ _ => FetchResult.ok [])
      (some (String.toList "data:image/png;base64,XY")) true
      (String.toList "One\n\nTwo") =
      .ok ⟨true, 2,
        [⟨1, String.toList "One",
          [⟨String.toList "Narrator", String.toList "One"⟩], [],
          createPlaceholderImage⟩,
        ⟨2, String.toList "Two",
          [⟨String.toList "Narrator", String.toList "Two"⟩], [],
          String.toList "XY"⟩]⟩ := rfl
  refine ⟨by decide, ?_⟩
  have h7 := claim7_image_policy (fun _ _ => FetchResult.ok [])
    (String.toList "data:image/png;base64,XY")
    (String.toList "One\n\nTwo") _ (by decide) h
  rw [h]
  exact congrArg Except.ok h7.2.2

/-- C4 counterexample: claim C4 states that a line whose trimmed form starts
with an ASCII letter followed by 0-48 speaker-class characters and then a
colon yields the captured speaker with the trimmed remainder as text, and
that any other non-empty line yields a Narrator line.  The non-empty line
"Alice:" is of the first form (letter, four class characters, colon), so the
claim predicts the DialogueLine {speaker "Alice", text ""}; the
implementation's regex requires at least one character after the colon
(`(.+?)`), fails to match, and emits {speaker "Narrator", text "Alice:"}
instead. -/
theorem claim4_cex :
    claimedLineC4 (String.toList "Alice:") =
      ⟨String.toList "Alice", []⟩ ∧
    parseSceneLines (String.toList "Alice:") =
      [⟨String.toList "Narrator", String.toList "Alice:"⟩] ∧
    (⟨String.toList "Narrator", String.toList "Alice:"⟩ : SceneLine) ≠
      ⟨String.toList "Alice", []⟩ := by
  refine ⟨by decide, by decide, by decide⟩

/-- C4 (amended: the speaker pattern additionally allows optional whitespace
between the captured token and the colon, and requires the remainder after
the colon to be non-empty after trimming and free of line terminators once
its leading whitespace is skipped — the regex dot cannot match a CR, LS or
PS surviving in the interior of a line): the parser processes each physical
line in order, skipping lines that are empty after trimming; `matchDialogue`
succeeds exactly on lines decomposable as an ASCII letter, at most 48
speaker-class characters, optional whitespace, a colon and such a remainder,
yielding the trimmed token and trimmed remainder; every other non-empty line
yields the Narrator line; each non-empty line maps to exactly one
DialogueLine with order preserved.  For the Scenario A input there are 3
scenes and scene 2 parses to exactly one DialogueLine
{speaker "Alice", text "Where are we?"}; a line whose remainder carries an
interior carriage return is a Narrator line. -/
theorem claim4_parse_characterization :
    (∀ scene, parseSceneLines scene =
      (((splitNl scene).map trimL).filter (fun t => t ≠ [])).map emitLine) ∧
    (∀ t sp tx, matchDialogue t = some (sp, tx) ↔
      (∃ a u w r, t = a :: (u ++ w ++ ':' :: r) ∧ isAsciiLetter a = true ∧
        u.all isSpeakerChar = true ∧ u.length ≤ 48 ∧
        (∀ c ∈ w, isWS c = true) ∧ trimL r ≠ [] ∧
        (∀ c ∈ r.dropWhile isWS, isLineTerm c = false) ∧
        sp = trimL (a :: u) ∧ tx = trimL r)) ∧
    (splitScenes (String.toList
      "Hello there.\n\nAlice: Where are we?\n\nNarrator voice stays implicit.")).length = 3 ∧
    parseSceneLines ((splitScenes (String.toList
      "Hello there.\n\nAlice: Where are we?\n\nNarrator voice stays implicit.")).getD 1 []) =
      [⟨String.toList "Alice", String.toList "Where are we?"⟩] ∧
    parseSceneLines (String.toList "A: x\rY") =
      [⟨String.toList "Narrator", String.toList "A: x\rY"⟩] := by
  exact ⟨parseSceneLines_eq, matchDialogue_some_iff, by decide, by decide, by decide⟩

/-- Witness for the amended C4: the regex characterization applied to a
concrete dialogue line. -/
theorem claim4_witness :
    matchDialogue (String.toList "Bob: hi") =
      some (String.toList "Bob", String.toList "hi") :=
  (claim4_parse_characterization.2.1 (String.toList "Bob: hi")
    (String.toList "Bob") (String.toList "hi")).mpr
    ⟨'B', String.toList "ob", [], String.toList " hi", by decide, by decide,
      by decide, by decide, by decide, by decide, by decide, by decide,
      by decide⟩

end StoryPipeline
